import Mathlib

/-!
Verification of the jmvcc MVCC core (`src/jmvcc/versioned2.h`,
`src/jmvcc/snapshot.cc`) against its natural-language specification.

The per-object version history of `Versioned2<T>` is embedded as a list of
`(valid_to, value)` entries together with the allocated capacity; the
snapshot registry of `Snapshot_Info` is embedded as an association list from
epochs to registry entries.  C++ exceptions are modelled with `Except`.
-/

namespace JMVCC

/-- Epochs (`Epoch`, a 64-bit unsigned counter in the C++); modelled as
naturals, since none of the verified operations can overflow it. -/
abbrev Epoch := Nat

/-- The distinct failure categories of the spec, one per `throw` site of the
source that the embedding can reach:
* `HistoryUnderflow`: `"popping back last element"` in `Data::pop_back` and
  `"cleaning up with no values to clean up"` in `Versioned2::cleanup`;
* `CapacityViolation`: `"new capacity is wrong"` in `Data::copy` and
  `"can't push back"` in `Data::push_back`;
* `EpochsOutOfOrder`: `"epochs out of order"` in `Versioned2::setup`;
* `NoActiveSnapshot`: `"register_cleanup with no snapshots"`;
* `NoActiveTransaction`: `"reading outside a transaction"` in
  `Versioned2::read` and `no_transaction_exception` in `Versioned2::mutate`;
* `DuplicateValidFrom`: `"two with the same valid_from value"`;
* `SizesWrong`: `"sizes were wrong"`;
* `CleanupNotFound`: `"attempt to clean up something that didn't exist"`;
* `RenameNoValues`: `"renaming with no values"`;
* `RenameNotFound`: `"not found"` in `Versioned2::rename_epoch`;
* `CleanupInvalidEntry`: `"cleaning up invalid entry"`;
* `CleanupWithSnapshots`: `"perform_cleanup with snapshots"`. -/
inductive Err where
  | HistoryUnderflow
  | CapacityViolation
  | EpochsOutOfOrder
  | NoActiveSnapshot
  | NoActiveTransaction
  | DuplicateValidFrom
  | SizesWrong
  | CleanupNotFound
  | RenameNoValues
  | RenameNotFound
  | CleanupInvalidEntry
  | CleanupWithSnapshots
  deriving DecidableEq, Repr

/-- One slot of `Versioned2<T>::Data::history`: `struct Entry { Epoch
valid_to; T value; }`. -/
structure Entry (α : Type) where
  valid_to : Epoch
  value : α
  deriving DecidableEq, Repr

/-- `Versioned2<T>::Data`: the heap block holding the version history.
`capacity` is the allocated slot count; `history` holds the entries between
`first` and `last`.  In the source `first` is initialised to `0` and never
incremented by any operation (`push_back`, `pop_back`, `cleanup` and
`rename_epoch` all keep or rebuild it at `0`; `rename_epoch` even throws on
`first != 0`), so the model keeps the live entries as a plain list. -/
structure Data (α : Type) where
  capacity : Nat
  history : List (Entry α)
  deriving DecidableEq, Repr

/-- `Data::size()` = `last - first`. -/
def Data.size (d : Data α) : Nat := d.history.length

/-- `Versioned2(val)`: the constructor calls `new_data(val, 1)`, which
allocates capacity 1 and pushes the single entry `Entry(1, val)`. -/
def newVersioned (val : α) : Data α := ⟨1, [⟨1, val⟩]⟩

/-- `Data::pop_back()`: throws `"popping back last element"` when
`size() < 2`, otherwise decrements `last` (drops the last entry). -/
def Data.pop_back (d : Data α) : Except Err (Data α) :=
  if d.size < 2 then .error .HistoryUnderflow
  else .ok ⟨d.capacity, d.history.dropLast⟩

/-- `Data::push_back(entry)`: throws when `last == capacity`, otherwise
constructs the entry in the next slot and increments `last`. -/
def Data.push_back (d : Data α) (en : Entry α) : Except Err (Data α) :=
  if d.size = d.capacity then .error .CapacityViolation
  else .ok ⟨d.capacity, d.history ++ [en]⟩

/-- `Data::copy(new_capacity)`: throws `"new capacity is wrong"` when
`new_capacity < size()`, else allocates a block of the new capacity and
copies the entries across. -/
def Data.copy (d : Data α) (newCap : Nat) : Except Err (Data α) :=
  if newCap < d.size then .error .CapacityViolation
  else .ok ⟨newCap, d.history⟩

/-- The loop of `Data::value_at_epoch`, operating on the history in
most-recent-first order (the C++ runs `for (int i = last - 1; i > first;
--i)`): at step `i` it reads `valid_from = history[i-1].valid_to` and
returns `history[i].value` when `epoch >= valid_from`; falling out of the
loop returns `history[first].value`.  The `[]` case corresponds to reading
an empty history, which the C++ never constructs (it would read garbage);
`default` stands for that unspecified value. -/
def valueFromBack [Inhabited α] : List (Entry α) → Epoch → α
  | [], _ => default
  | [x], _ => x.value
  | x :: prev :: rest, e =>
    if prev.valid_to ≤ e then x.value else valueFromBack (prev :: rest) e

/-- `Data::value_at_epoch(epoch)`. -/
def Data.value_at_epoch [Inhabited α] (d : Data α) (e : Epoch) : α :=
  valueFromBack d.history.reverse e

/-- `back().valid_to = v` — rewrite the `valid_to` of the last entry. -/
def patchLast : List (Entry α) → Epoch → List (Entry α)
  | [], _ => []
  | [x], v => [⟨v, x.value⟩]
  | x :: y :: rest, v => x :: patchLast (y :: rest) v

/-- Spec-side notion: the `valid_from` of the entry at index `i`, i.e. the
first epoch at which that entry is visible.  Per the spec's data model the
entry at index `i` is visible to epochs in `[entries[i-1].valid_to,
entries[i].valid_to)`, with `valid_from = 1` for the head entry. -/
def validFromAt (d : Data α) (i : Nat) : Epoch :=
  if i = 0 then 1 else ((d.history[i-1]?).map Entry.valid_to).getD 1

/-- `Versioned2::setup(old_epoch, new_epoch, new_value)` acting on one
`Data` block (the CAS retry loop always succeeds on the first iteration in
a sequential model).  Throws when `new_epoch != get_current_epoch() + 1`
(`cur` is the current epoch); computes `valid_from` as
`element(size()-2).valid_to` when `size() > 1` else `1`; returns `false`
when `valid_from > old_epoch`; otherwise copies into a block of capacity
`size() + 1`, patches the old tail's `valid_to` to `new_epoch` and pushes
`Entry(1, new_value)`. -/
def setup (cur old new : Epoch) (v : α) (d : Data α) :
    Except Err (Bool × Data α) :=
  if new ≠ cur + 1 then .error .EpochsOutOfOrder
  else
    let valid_from : Epoch :=
      if 1 < d.size then ((d.history[d.size - 2]?).map Entry.valid_to).getD 1
      else 1
    if old < valid_from then .ok (false, d)
    else
      match d.copy (d.size + 1) with
      | .error e => .error e
      | .ok nd =>
        match Data.push_back ⟨nd.capacity, patchLast nd.history new⟩ ⟨1, v⟩ with
        | .error e => .error e
        | .ok nd2 => .ok (true, nd2)

/-- The epoch `Versioned2::commit` hands to `register_cleanup`:
`element(size()-3).valid_to` when `size() > 2`, else `1`. -/
def commitValidFrom (d : Data α) : Epoch :=
  if 2 < d.size then ((d.history[d.size - 3]?).map Entry.valid_to).getD 1
  else 1

/-- `Versioned2::rollback`: copies the block at the same size and pops the
tentative tail entry. -/
def rollback (d : Data α) : Except Err (Data α) :=
  match d.copy d.size with
  | .error e => .error e
  | .ok d2 => d2.pop_back

/-- The copy loop of `Versioned2::cleanup` over the entries after the
head.  State: the remaining entries, the running `valid_from` (the previous
entry's `valid_to`), the output block `acc`, the `found` flag, and a flag
recording that the `"two with the same valid_from value"` throw fired.
At each entry: when the running `valid_from` equals `unused_valid_from` the
entry is skipped and, when the output is nonempty (`j != 0`), the previous
output entry's `valid_to` is patched to the skipped entry's `valid_to`;
otherwise the entry is copied across. -/
def cleanupGo (uvf : Epoch) :
    List (Entry α) → Epoch → List (Entry α) → Bool → Bool →
    List (Entry α) × Bool × Bool
  | [], _, acc, found, dup => (acc, found, dup)
  | y :: ys, vf, acc, found, dup =>
    if vf = uvf then
      cleanupGo uvf ys y.valid_to (patchLast acc y.valid_to) true (dup || found)
    else cleanupGo uvf ys y.valid_to (acc ++ [y]) found dup

/-- The full copy loop of `Versioned2::cleanup`, head entry included: at
`i == first` the running `valid_from` is `1` and the removal condition also
fires when `unused_valid_from < front().valid_to`. -/
def cleanupScan (uvf : Epoch) (x : Entry α) (rest : List (Entry α)) :
    List (Entry α) × Bool × Bool :=
  if 1 = uvf ∨ uvf < x.valid_to then
    cleanupGo uvf rest x.valid_to [] true false
  else cleanupGo uvf rest x.valid_to [x] false false

/-- `Versioned2::cleanup(unused_valid_from, trigger_epoch)`: throws
`"cleaning up with no values to clean up"` when `size() < 2`; otherwise
copies into a fresh block of capacity `size()`, skipping the entry whose
running `valid_from` matches `unused_valid_from` (the head entry also
matches when `unused_valid_from < front().valid_to`); throws on a duplicate
match, on no match, and when the result is not exactly one entry shorter. -/
def Data.cleanup (d : Data α) (uvf trigger : Epoch) : Except Err (Data α) :=
  if d.size < 2 then .error .HistoryUnderflow
  else
    match d.history with
    | [] => .error .HistoryUnderflow
    | x :: rest =>
      if (cleanupScan uvf x rest).2.2 then .error .DuplicateValidFrom
      else if (cleanupScan uvf x rest).2.1 = false then
        .error .CleanupNotFound
      else if d.size ≠ (cleanupScan uvf x rest).1.length + 1 then
        .error .SizesWrong
      else .ok ⟨d.size, (cleanupScan uvf x rest).1⟩

/-- `Versioned2::rename_epoch(old_valid_from, new_valid_from)`: throws on an
empty history; returns without change when `old_valid_from <
history[0].valid_to` (reporting `history[1].valid_to` when `size() == 2`,
else `0`); otherwise rewrites the `valid_to` of the first entry equal to
`old_valid_from` to `new_valid_from` (throwing `"not found"` when none
matches).  The reported epoch is `history[size()-2].valid_to` when the
match was at index `size()-3` (the C++ comparison `i == s - 3` is between
an unsigned `i` and the `int` `s - 3`, so it can only hold when `s >= 3`),
else `0`. -/
def rename_epoch (old new : Epoch) (d : Data α) :
    Except Err (Epoch × Data α) :=
  match d.history with
  | [] => .error .RenameNoValues
  | x :: _ =>
    if old < x.valid_to then
      .ok ((if d.size = 2 then ((d.history[1]?).map Entry.valid_to).getD 0
            else 0), d)
    else
      match d.history.findIdx? (fun en => en.valid_to = old) with
      | none => .error .RenameNotFound
      | some i =>
        match d.history[i]? with
        | none => .error .RenameNotFound
        | some en =>
          let res : Epoch :=
            if 3 ≤ d.size ∧ i = d.size - 3 then
              ((d.history[d.size - 2]?).map Entry.valid_to).getD 0
            else 0
          .ok (res, ⟨d.capacity, d.history.set i ⟨new, en.value⟩⟩)

/-- `Versioned2::history_size()` = `get_data()->size() - 1`. -/
def history_size (d : Data α) : Nat := d.size - 1

/-- Modelled from the spec: the transaction's per-object staging slot.  The
bodies of `Transaction::local_value<T>` and the thread-local `current_trans`
live in `transaction.h`, which is not under `src/`; per spec §3 a
transaction holds a snapshot epoch and an optional locally-staged value for
the object. -/
structure Transaction (α : Type) where
  epoch : Epoch
  localVal : Option α
  deriving DecidableEq, Repr

/-- `Versioned2::read()`, with the bound transaction passed explicitly
(`current_trans` is a thread-local in the source).  Throws `"reading
outside a transaction"` when no transaction is bound; otherwise returns the
staged local value if present, else `value_at_epoch(current_trans->epoch())`.
The method never writes the object, so the `Data` component is returned
unchanged on every path. -/
def read [Inhabited α] (tr : Option (Transaction α)) (d : Data α) :
    Except Err α × Data α :=
  match tr with
  | none => (.error .NoActiveTransaction, d)
  | some t =>
    match t.localVal with
    | some v => (.ok v, d)
    | none => (.ok (d.value_at_epoch t.epoch), d)

/-- `Versioned2::mutate()`.  Modelled from the spec for the failure path:
`no_transaction_exception(this)` is declared outside `src/` and per spec §7
raises the `NoActiveTransaction` error.  With a bound transaction it returns
the staged local value, creating it from `value_at_epoch` when absent.  The
method never writes the object's history, so the `Data` component is
returned unchanged on every path. -/
def mutate [Inhabited α] (tr : Option (Transaction α)) (d : Data α) :
    Except Err (α × Transaction α) × Data α :=
  match tr with
  | none => (.error .NoActiveTransaction, d)
  | some t =>
    match t.localVal with
    | some v => (.ok (v, t), d)
    | none =>
      let v := d.value_at_epoch t.epoch
      (.ok (v, { t with localVal := some v }), d)

/-- One value of `Snapshot_Info::Entries::mapped_type`: the set of live
snapshots at an epoch (identified here by numeric ids) and the cleanup
list of `(object, valid_from)` pairs (objects identified by numeric ids). -/
structure RegEntry where
  snapshots : List Nat
  cleanups : List (Nat × Epoch)
  deriving DecidableEq, Repr

/-- `Snapshot_Info::entries`: a `std::map<Epoch, Entry>`, modelled as an
association list in ascending key order. -/
abbrev Registry := List (Epoch × RegEntry)

/-- Locate the registry entry with the given epoch, splitting the registry
into the entries before it, the entry itself, and the entries after it
(`boost::prior(it)` of the map iterator is the last element of the first
component). -/
def splitReg : Registry → Epoch → Option (Registry × RegEntry × Registry)
  | [], _ => none
  | p :: rest, e =>
    if p.1 = e then some ([], p.2, rest)
    else
      match splitReg rest e with
      | none => none
      | some (pre, ent, post) => some (p :: pre, ent, post)

/-- `it->second.cleanups.push_back(...)` on the last entry of a registry
segment: append the given pairs to the cleanup list of the final entry. -/
def appendToLastCleanups : Registry → List (Nat × Epoch) → Registry
  | [], _ => []
  | [(k, ent)], t => [(k, ⟨ent.snapshots, ent.cleanups ++ t⟩)]
  | p :: q :: rest, t => p :: appendToLastCleanups (q :: rest) t

/-- The routing loop of `Snapshot_Info::perform_cleanup`: for each
`(obj, epoch)` pair on the cleanup list, `if (prev_epoch >= epoch &&
prev_snapshot)` it is pushed onto the previous snapshot's cleanup list,
otherwise it is kept for the local destroy list (the source compacts it
in place and then swaps it into `to_clean_up`).  Returns
`(transferred, kept)`, both in the original order. -/
def routeCleanups (hasPred : Bool) (predEpoch : Epoch) :
    List (Nat × Epoch) → List (Nat × Epoch) × List (Nat × Epoch)
  | [] => ([], [])
  | c :: rest =>
    let tk := routeCleanups hasPred predEpoch rest
    if predEpoch ≥ c.2 ∧ hasPred then (c :: tk.1, tk.2)
    else (tk.1, c :: tk.2)

/-- `Snapshot_Info::perform_cleanup(it, guard)` on the entry with epoch `e`:
requires the entry's snapshot set to be empty and the iterator to be valid;
routes each cleanup pair either to the predecessor entry (the next lower
epoch, if any) or to the destroy list; erases the entry; and only then (after
releasing the registry lock) would the caller run `obj->cleanup(epoch,
snapshot_epoch)` for each destroyed pair — returned here as the list of
pending `(obj, valid_from, snapshot_epoch)` calls alongside the already
erased registry.  (The `set_earliest_epoch` update on the head entry touches
only the global epoch bounds and is not modelled.) -/
def perform_cleanup (reg : Registry) (e : Epoch) :
    Except Err (Registry × List (Nat × Epoch × Epoch)) :=
  match splitReg reg e with
  | none => .error .CleanupInvalidEntry
  | some (pre, ent, post) =>
    if ent.snapshots ≠ [] then .error .CleanupWithSnapshots
    else
      .ok (appendToLastCleanups pre
             (routeCleanups (!pre.isEmpty) (((pre.getLast?).map Prod.fst).getD 0)
               ent.cleanups).1 ++ post,
           (routeCleanups (!pre.isEmpty) (((pre.getLast?).map Prod.fst).getD 0)
               ent.cleanups).2.map (fun c => (c.1, c.2, e)))

/-- `Snapshot_Info::register_cleanup(obj, epoch_to_cleanup)`: throws
`"register_cleanup with no snapshots"` on an empty registry, else pushes the
pair onto the cleanup list of `boost::prior(entries.end())` — the last
(highest-epoch) entry. -/
def register_cleanup (reg : Registry) (obj : Nat) (epochToCleanup : Epoch) :
    Except Err Registry :=
  match reg with
  | [] => .error .NoActiveSnapshot
  | _ => .ok (appendToLastCleanups reg [(obj, epochToCleanup)])

/-- `Versioned2::commit(new_epoch)`: computes the `valid_from` of the
now-superseded version and registers it for cleanup.  It does not modify the
object's history. -/
def commit (reg : Registry) (obj : Nat) (d : Data α) : Except Err Registry :=
  register_cleanup reg obj (commitValidFrom d)

theorem appendToLastCleanups_concat :
    ∀ (pre : Registry) (k : Epoch) (ent : RegEntry) (t : List (Nat × Epoch)),
      appendToLastCleanups (pre ++ [(k, ent)]) t =
        pre ++ [(k, ⟨ent.snapshots, ent.cleanups ++ t⟩)] := by
  intro pre
  induction pre with
  | nil => intro k ent t; rfl
  | cons p pre2 ih =>
    intro k ent t
    cases pre2 with
    | nil => rfl
    | cons q pre3 => simpa [appendToLastCleanups] using ih k ent t

theorem appendToLastCleanups_keys (pre : Registry) (t : List (Nat × Epoch)) :
    (appendToLastCleanups pre t).map Prod.fst = pre.map Prod.fst := by
  induction pre with
  | nil => rfl
  | cons p pre2 ih =>
    cases hp : pre2 with
    | nil => cases p; rfl
    | cons q pre3 =>
      subst hp
      simpa [appendToLastCleanups] using ih

theorem splitReg_of_parts :
    ∀ (pre : Registry) (e : Epoch) (ent : RegEntry) (post : Registry),
      (∀ p ∈ pre, p.1 ≠ e) →
      splitReg (pre ++ (e, ent) :: post) e = some (pre, ent, post) := by
  intro pre
  induction pre with
  | nil => intro e ent post _; simp [splitReg]
  | cons p pre2 ih =>
    intro e ent post h
    have hp : p.1 ≠ e := h p (by simp)
    simp only [List.cons_append, splitReg, if_neg hp, List.append_eq]
    rw [ih e ent post (fun q hq => h q (by simp [hq]))]

theorem routeCleanups_eq (hasPred : Bool) (predEpoch : Epoch) :
    ∀ cl : List (Nat × Epoch),
      routeCleanups hasPred predEpoch cl =
        (cl.filter (fun c => decide (c.2 ≤ predEpoch) && hasPred),
         cl.filter (fun c => !(decide (c.2 ≤ predEpoch) && hasPred))) := by
  intro cl
  induction cl with
  | nil => rfl
  | cons c rest ih =>
    simp only [routeCleanups, ih]
    by_cases hc : predEpoch ≥ c.2 ∧ hasPred = true
    · rw [if_pos hc]
      simp [List.filter, decide_eq_true_eq, hc.1, hc.2]
    · rw [if_neg hc]
      rcases Decidable.not_and_iff_or_not.mp hc with h1 | h1 <;>
        simp [List.filter, decide_eq_true_eq, h1] <;>
        simp [Nat.not_le.mp h1, Nat.lt_iff_add_one_le, Bool.eq_false_iff] at * <;>
        simp_all

/-- Locate the first entry removed by the `cleanup` copy loop after the
head: scanning with the running `valid_from` `vf`, return the entries
before the match, the matched entry, and the entries after it. -/
def firstMatch (uvf : Epoch) : Epoch → List (Entry α) →
    Option (List (Entry α) × Entry α × List (Entry α))
  | _, [] => none
  | vf, y :: ys =>
    if vf = uvf then some ([], y, ys)
    else (firstMatch uvf y.valid_to ys).map fun p => (y :: p.1, p.2.1, p.2.2)

/-- The history invariant with the tail excluded: every pair of adjacent
entries other than the pair ending at the tail entry (whose `valid_to` is
the sentinel `1`) is strictly increasing in `valid_to`. -/
def nonTailMono (d : Data α) : Prop :=
  List.Chain' (fun a b => a.valid_to < b.valid_to) d.history.dropLast

/-- Strict monotonicity of `valid_to` over the whole history, tail entry
included — the property claimed by the spec sentence "(strict
monotonicity)" when read as covering the tail. -/
def fullMono (d : Data α) : Prop :=
  List.Chain' (fun a b => a.valid_to < b.valid_to) d.history

instance (d : Data α) : Decidable (nonTailMono d) := by
  unfold nonTailMono; infer_instance

instance (d : Data α) : Decidable (fullMono d) := by
  unfold fullMono; infer_instance

theorem patchLast_length (l : List (Entry α)) (v : Epoch) :
    (patchLast l v).length = l.length := by
  induction l with
  | nil => rfl
  | cons x rest ih =>
    cases rest with
    | nil => rfl
    | cons y r => simpa [patchLast] using ih

theorem patchLast_concat (l : List (Entry α)) (x : Entry α) (v : Epoch) :
    patchLast (l ++ [x]) v = l ++ [⟨v, x.value⟩] := by
  induction l with
  | nil => rfl
  | cons a rest ih =>
    cases rest with
    | nil => rfl
    | cons b r => simpa [patchLast] using ih

theorem validFrom_code_eq (d : Data α) :
    (if 1 < d.size then ((d.history[d.size - 2]?).map Entry.valid_to).getD 1
     else 1) = validFromAt d (d.size - 1) := by
  unfold validFromAt
  by_cases h1 : 1 < d.size
  · have h2 : ¬ d.size - 1 = 0 := by omega
    rw [if_pos h1, if_neg h2]
    have h3 : d.size - 1 - 1 = d.size - 2 := by omega
    rw [h3]
  · have h2 : d.size - 1 = 0 := by omega
    rw [if_neg h1, if_pos h2]

/-- Evaluation of `setup` when the epoch-order check passes: it returns
`false` leaving the object untouched exactly when the tail version's
`valid_from` exceeds `old_epoch`, and otherwise installs the copied block
with the patched tail and the tentative new entry. -/
theorem setup_eq (cur old : Epoch) (v : α) (d : Data α) :
    setup cur old (cur + 1) v d =
      if old < validFromAt d (d.size - 1) then .ok (false, d)
      else .ok (true, ⟨d.size + 1, patchLast d.history (cur + 1) ++ [⟨1, v⟩]⟩) := by
  unfold setup
  rw [if_neg (by simp)]
  rw [validFrom_code_eq]
  rcases lt_or_ge old (validFromAt d (d.size - 1)) with h | h
  · simp [h]
  · have hn : ¬ old < validFromAt d (d.size - 1) := not_lt.mpr h
    rw [if_neg hn, if_neg hn]
    have hcopy : d.copy (d.size + 1) = .ok ⟨d.size + 1, d.history⟩ := by
      simp [Data.copy]
    rw [hcopy]
    dsimp only
    have hpush :
        Data.push_back ⟨d.size + 1, patchLast d.history (cur + 1)⟩ ⟨1, v⟩ =
          .ok ⟨d.size + 1, patchLast d.history (cur + 1) ++ [⟨1, v⟩]⟩ := by
      simp [Data.push_back, Data.size, patchLast_length]
    rw [hpush]

/-- C8: on a history with exactly one entry, `pop_back` (used by rollback)
and `cleanup` both fail with `HistoryUnderflow` (leaving the history
untouched — both throw before mutating anything), and neither a successful
`pop_back` nor a successful `cleanup` can produce an empty history. -/
theorem pop_back_underflow_spec :
    (∀ (α : Type) (d : Data α), d.size = 1 →
      d.pop_back = .error .HistoryUnderflow ∧
      ∀ uvf trigger, d.cleanup uvf trigger = .error .HistoryUnderflow) ∧
    (∀ (α : Type) (d d2 : Data α), d.pop_back = .ok d2 →
      d2.history = d.history.dropLast ∧ 1 ≤ d2.size) ∧
    (∀ (α : Type) (d d2 : Data α) (uvf trigger : Epoch),
      d.cleanup uvf trigger = .ok d2 → 1 ≤ d2.size) := by
  refine ⟨fun α d h => ⟨?_, fun uvf trigger => ?_⟩,
          fun α d d2 h => ?_, fun α d d2 uvf trigger h => ?_⟩
  · simp [Data.pop_back, h]
  · simp [Data.cleanup, h]
  · unfold Data.pop_back at h
    by_cases hs : d.size < 2
    · simp [hs] at h
    · simp only [hs, if_false] at h
      cases h
      constructor
      · rfl
      · simp only [Data.size, List.length_dropLast] at *
        omega
  · unfold Data.cleanup at h
    by_cases hs : d.size < 2
    · simp [hs] at h
    · rw [if_neg hs] at h
      cases hh : d.history with
      | nil => rw [hh] at h; simp at h
      | cons x rest =>
        rw [hh] at h
        dsimp only at h
        by_cases h1 : (cleanupScan uvf x rest).2.2
        · rw [if_pos h1] at h; simp at h
        · rw [if_neg h1] at h
          by_cases h2 : (cleanupScan uvf x rest).2.1 = false
          · rw [if_pos h2] at h; simp at h
          · rw [if_neg h2] at h
            by_cases h3 : d.size ≠ (cleanupScan uvf x rest).1.length + 1
            · rw [if_pos h3] at h; simp at h
            · rw [if_neg h3] at h
              cases h
              simp only [Data.size] at *
              omega

/-- Witness for C8 at a one-entry history and a concrete successful pop. -/
theorem pop_back_underflow_spec_witness :
    ((newVersioned (0 : ℕ)).pop_back = .error .HistoryUnderflow ∧
      ∀ uvf trigger,
        (newVersioned (0 : ℕ)).cleanup uvf trigger = .error .HistoryUnderflow) ∧
    ((⟨2, [⟨1, 0⟩]⟩ : Data ℕ).history = [⟨1, (0 : ℕ)⟩] ∧
      1 ≤ (⟨2, [⟨1, 0⟩]⟩ : Data ℕ).size) := by
  refine ⟨pop_back_underflow_spec.1 ℕ (newVersioned 0) rfl, ?_⟩
  exact pop_back_underflow_spec.2.1 ℕ ⟨2, [⟨1, 0⟩, ⟨2, 5⟩]⟩ ⟨2, [⟨1, 0⟩]⟩ rfl

/-- C9: `read()` and `mutate()` with no current transaction bound fail with
`NoActiveTransaction` and leave the object's history unchanged. -/
theorem read_mutate_no_transaction :
    ∀ (α : Type) (inst : Inhabited α) (d : Data α),
      read none d = (.error .NoActiveTransaction, d) ∧
      mutate none d = (.error .NoActiveTransaction, d) :=
  fun _ _ _ => ⟨rfl, rfl⟩

/-- C2: `setup(old_epoch, new_epoch, new_value)` returns `false` exactly
when the `valid_from` of the current (tail) version exceeds `old_epoch`;
on `true` the history has gained a tentative tail entry holding the new
value whose validity begins at `new_epoch`, with all prior entries' values
unchanged. -/
theorem setup_spec :
    ∀ (α : Type) (cur old new : Epoch) (v : α) (d : Data α),
      new = cur + 1 → d.history ≠ [] →
      (setup cur old new v d = .ok (false, d) ↔
        old < validFromAt d (d.size - 1)) ∧
      (∀ d2, setup cur old new v d = .ok (true, d2) →
        d2.history.getLast? = some ⟨1, v⟩ ∧
        validFromAt d2 (d2.size - 1) = new ∧
        d2.size = d.size + 1 ∧
        ∀ i, i < d.size →
          (d2.history[i]?).map Entry.value = (d.history[i]?).map Entry.value) := by
  intro α cur old new v d hnew hne
  subst hnew
  rw [setup_eq]
  obtain ⟨l, x, hlx⟩ := (List.eq_nil_or_concat d.history).resolve_left hne
  rw [List.concat_eq_append] at hlx
  constructor
  · constructor
    · intro h
      by_contra hcon
      rw [if_neg hcon] at h
      simp at h
    · intro h
      simp [h]
  · intro d2 h
    rcases lt_or_ge old (validFromAt d (d.size - 1)) with hc | hc
    · simp [hc] at h
    · have hn : ¬ old < validFromAt d (d.size - 1) := not_lt.mpr hc
      rw [if_neg hn] at h
      cases h
      have hsz : d.size = l.length + 1 := by
        simp [Data.size, hlx]
      have hist2 : patchLast d.history (cur + 1) ++ [(⟨1, v⟩ : Entry α)] =
          l ++ [⟨cur + 1, x.value⟩, ⟨1, v⟩] := by
        rw [hlx, patchLast_concat]
        simp
      refine ⟨?_, ?_, ?_, ?_⟩
      · simp only [hist2]
        rw [List.getLast?_append]
        rfl
      · simp only [validFromAt, Data.size, hist2, List.length_append]
        rw [if_neg (by simp)]
        have hidx : l.length + 2 - 1 - 1 = l.length := by omega
        simp only [List.length_cons, List.length_nil, hidx]
        rw [List.getElem?_append_right (Nat.le_refl _)]
        simp
      · simp [Data.size, patchLast_length]
      · intro i hi
        simp only [hist2]
        rcases Nat.lt_or_ge i l.length with hil | hil
        · rw [List.getElem?_append_left hil, hlx, List.getElem?_append_left hil]
        · have hieq : i = l.length := by
            simp only [Data.size, hlx, List.length_append,
              List.length_singleton] at hi
            omega
          subst hieq
          rw [List.getElem?_append_right (Nat.le_refl _), hlx,
            List.getElem?_append_right (Nat.le_refl _)]
          simp

/-- Witness for C2 at a fresh object: `setup(1, 2, 7)` at current epoch 1
returns `true` and appends the tentative entry. -/
theorem setup_spec_witness :
    ((newVersioned (0 : ℕ)).history ≠ [] ∧
      setup 1 1 2 (7 : ℕ) (newVersioned 0) =
        .ok (true, ⟨2, [⟨2, 0⟩, ⟨1, 7⟩]⟩)) ∧
    ((⟨2, [⟨2, 0⟩, ⟨1, 7⟩]⟩ : Data ℕ).history.getLast? = some ⟨1, 7⟩ ∧
      validFromAt (⟨2, [⟨2, 0⟩, ⟨1, 7⟩]⟩ : Data ℕ)
        ((⟨2, [⟨2, 0⟩, ⟨1, 7⟩]⟩ : Data ℕ).size - 1) = 2) := by
  have h := (setup_spec ℕ 1 1 2 7 (newVersioned 0) rfl (by decide)).2
    ⟨2, [⟨2, 0⟩, ⟨1, 7⟩]⟩ rfl
  exact ⟨⟨by decide, rfl⟩, h.1, h.2.1⟩

theorem valueFromBack_skipAll [Inhabited α] (e : Epoch) :
    ∀ (pre : List (Entry α)) (y : Entry α) (l : List (Entry α)),
      (∀ a ∈ (pre ++ [y]).tail, e < a.valid_to) →
      valueFromBack (pre ++ y :: l) e = valueFromBack (y :: l) e := by
  intro pre
  induction pre with
  | nil => intro y l _; rfl
  | cons p pre2 ih =>
    intro y l h
    have hmemhead : ∀ b, (pre2 ++ [y]).head? = some b → e < b.valid_to := by
      intro b hb
      exact h b (by
        simp only [List.cons_append, List.tail_cons]
        exact List.mem_of_mem_head? hb)
    cases hp : pre2 with
    | nil =>
      subst hp
      have hy : e < y.valid_to := hmemhead y rfl
      simp only [List.nil_append, List.cons_append, valueFromBack]
      rw [if_neg (not_le.mpr hy)]
    | cons q pre3 =>
      subst hp
      have hq : e < q.valid_to := hmemhead q rfl
      simp only [List.cons_append, valueFromBack]
      rw [if_neg (not_le.mpr hq)]
      refine ih y l ?_
      intro a ha
      refine h a ?_
      simp only [List.cons_append, List.tail_cons] at ha ⊢
      exact List.mem_of_mem_tail ha

theorem valueFromBack_allSkip [Inhabited α] (e : Epoch) :
    ∀ (l : List (Entry α)) (z : Entry α), l.getLast? = some z →
      (∀ a ∈ l.tail, e < a.valid_to) → valueFromBack l e = z.value := by
  intro l
  induction l with
  | nil => intro z hz _; simp at hz
  | cons x rest ih =>
    intro z hz h
    cases hr : rest with
    | nil =>
      subst hr
      simp only [List.getLast?_singleton, Option.some.injEq] at hz
      subst hz
      rfl
    | cons y r =>
      subst hr
      have hy : e < y.valid_to := h y (by simp)
      simp only [valueFromBack]
      rw [if_neg (not_le.mpr hy)]
      refine ih z ?_ ?_
      · rw [← hz, List.getLast?_cons_cons]
      · intro a ha
        exact h a (List.mem_of_mem_tail ha)

/-- C1: `value_at_epoch(epoch)` returns the value chosen by scanning the
entries from most recent toward oldest, where the first entry at index `i`
whose predecessor satisfies `entries[i-1].valid_to ≤ epoch` wins; if no
entry matches, the head entry's value is returned.  The winning entry is
`chosen` below: `pred` is its predecessor, and the condition on
`(chosen :: rest).dropLast` says that no more recent entry (other than the
tail, whose own `valid_to` the scan never examines) admits the epoch. -/
theorem value_at_epoch_spec :
    ∀ (α : Type) (inst : Inhabited α) (d : Data α) (e : Epoch),
      (∀ (front : List (Entry α)) (pred chosen : Entry α)
          (rest : List (Entry α)),
        d.history = front ++ pred :: chosen :: rest →
        pred.valid_to ≤ e →
        (∀ a ∈ (chosen :: rest).dropLast, e < a.valid_to) →
        d.value_at_epoch e = chosen.value) ∧
      ((∀ a ∈ d.history.dropLast, e < a.valid_to) →
        ∀ hd, d.history.head? = some hd → d.value_at_epoch e = hd.value) := by
  intro α inst d e
  constructor
  · intro front pred chosen rest hsplit hpred hnolater
    unfold Data.value_at_epoch
    rw [hsplit]
    have hrev : (front ++ pred :: chosen :: rest).reverse =
        rest.reverse ++ chosen :: pred :: front.reverse := by
      simp
    rw [hrev]
    have hskip : valueFromBack (rest.reverse ++ chosen :: pred :: front.reverse) e =
        valueFromBack (chosen :: pred :: front.reverse) e := by
      refine valueFromBack_skipAll e rest.reverse chosen (pred :: front.reverse) ?_
      intro a ha
      have : rest.reverse ++ [chosen] = (chosen :: rest).reverse := by simp
      rw [this, List.tail_reverse] at ha
      exact hnolater a (List.mem_reverse.mp ha)
    rw [hskip]
    simp only [valueFromBack]
    rw [if_pos hpred]
  · intro hall hd hhd
    unfold Data.value_at_epoch
    refine valueFromBack_allSkip e d.history.reverse hd ?_ ?_
    · rw [List.getLast?_reverse]
      exact hhd
    · intro a ha
      rw [List.tail_reverse] at ha
      exact hall a (List.mem_reverse.mp ha)

/-- Witness for C1 on the three-entry history
`[(valid_to 3, 10), (valid_to 6, 20), (valid_to 1, 30)]`: epoch 4 selects
the middle entry (its `valid_from` is 3), and epoch 2 selects the head
entry (no later entry admits it). -/
theorem value_at_epoch_spec_witness :
    (Data.value_at_epoch ⟨3, [⟨3, 10⟩, ⟨6, 20⟩, ⟨1, 30⟩]⟩ 4 = (20 : ℕ)) ∧
    (Data.value_at_epoch ⟨3, [⟨3, 10⟩, ⟨6, 20⟩, ⟨1, 30⟩]⟩ 2 = (10 : ℕ)) := by
  constructor
  · exact (value_at_epoch_spec ℕ inferInstance ⟨3, [⟨3, 10⟩, ⟨6, 20⟩, ⟨1, 30⟩]⟩ 4).1
      [] ⟨3, 10⟩ ⟨6, 20⟩ [⟨1, 30⟩] rfl (by decide) (by decide)
  · exact (value_at_epoch_spec ℕ inferInstance ⟨3, [⟨3, 10⟩, ⟨6, 20⟩, ⟨1, 30⟩]⟩ 2).2
      (by decide) ⟨3, 10⟩ rfl

/-- C7: `register_cleanup(object, valid_from)` fails with
`NoActiveSnapshot` on an empty registry; otherwise it appends the pair onto
the cleanup list of the tail registry entry, which under the registry's
ascending-key ordering is the highest-epoch entry; and the object's
`commit` invokes it with the `valid_from` of the previously-current version
(the entry at index `size - 2`, just below the tentative tail). -/
theorem register_cleanup_spec :
    (∀ (obj : Nat) (v : Epoch),
      register_cleanup [] obj v = .error .NoActiveSnapshot) ∧
    (∀ (pre : Registry) (k : Epoch) (ent : RegEntry) (obj : Nat) (v : Epoch),
      register_cleanup (pre ++ [(k, ent)]) obj v =
        .ok (pre ++ [(k, ⟨ent.snapshots, ent.cleanups ++ [(obj, v)]⟩)]) ∧
      (List.Chain' (· < ·) ((pre ++ [(k, ent)]).map Prod.fst) →
        ∀ p ∈ pre, p.1 < k)) ∧
    (∀ (α : Type) (d : Data α) (reg : Registry) (obj : Nat),
      commit reg obj d = register_cleanup reg obj (validFromAt d (d.size - 2))) := by
  refine ⟨fun obj v => rfl, fun pre k ent obj v => ⟨?_, ?_⟩, ?_⟩
  · cases pre with
    | nil => rfl
    | cons p pre2 =>
      show Except.ok (appendToLastCleanups ((p :: pre2) ++ [(k, ent)]) [(obj, v)]) = _
      rw [appendToLastCleanups_concat]
  · intro hsort p hp
    rw [List.chain'_iff_pairwise] at hsort
    have := (List.pairwise_append.mp (by simpa using hsort)).2.2
    exact this p.1 (List.mem_map_of_mem Prod.fst hp) k (by simp)
  · intro α d reg obj
    unfold commit
    congr 1
    unfold commitValidFrom validFromAt
    by_cases h2 : 2 < d.size
    · have hne : ¬ d.size - 2 = 0 := by omega
      rw [if_pos h2, if_neg hne]
      have h3 : d.size - 2 - 1 = d.size - 3 := by omega
      rw [h3]
    · have heq : d.size - 2 = 0 := by omega
      rw [if_neg h2, if_pos heq]

/-- Witness for C7: a two-entry registry receives the pair on its tail
entry, and `commit` of a three-entry history registers the head entry's
`valid_to` (the `valid_from` of the middle, previously-current version). -/
theorem register_cleanup_spec_witness :
    (register_cleanup [(3, ⟨[7], []⟩), (9, ⟨[], [(4, 2)]⟩)] 5 3 =
      .ok [(3, ⟨[7], []⟩), (9, ⟨[], [(4, 2), (5, 3)]⟩)]) ∧
    ((3 : Epoch) < 9 ∧
      commit [(3, ⟨[7], []⟩)] 5 (⟨3, [⟨6, 0⟩, ⟨8, 1⟩, ⟨1, 2⟩]⟩ : Data ℕ) =
        register_cleanup [(3, ⟨[7], []⟩)] 5 6) := by
  refine ⟨(register_cleanup_spec.2.1 [(3, ⟨[7], []⟩)] 9 ⟨[], [(4, 2)]⟩ 5 3).1, ?_, ?_⟩
  · exact (register_cleanup_spec.2.1 [(3, ⟨[7], []⟩)] 9 ⟨[], [(4, 2)]⟩ 5 3).2
      (by norm_num [List.chain'_iff_pairwise]) (3, ⟨[7], []⟩) (by simp)
  · exact register_cleanup_spec.2.2 ℕ ⟨3, [⟨6, 0⟩, ⟨8, 1⟩, ⟨1, 2⟩]⟩
      [(3, ⟨[7], []⟩)] 5

/-- C3: `perform_cleanup` on a registry entry with an empty snapshot set:
each `(obj, v)` pair on its cleanup list is transferred to the predecessor
entry's cleanup list when a predecessor (next lower epoch) exists with
epoch ≥ `v`, and otherwise becomes a pending `obj.cleanup(v, entry.epoch)`
call; the entry itself is erased from the registry before any cleanup
callback runs (the returned registry, in which the entry no longer appears,
is installed before the returned calls are performed). -/
theorem perform_cleanup_spec :
    ∀ (pre : Registry) (e : Epoch) (ent : RegEntry) (post : Registry),
      ent.snapshots = [] →
      (∀ p ∈ pre, p.1 < e) → (∀ p ∈ post, e < p.1) →
      ∃ reg2 calls,
        perform_cleanup (pre ++ (e, ent) :: post) e = .ok (reg2, calls) ∧
        (∀ q ∈ reg2, q.1 ≠ e) ∧
        (pre = [] →
          reg2 = post ∧ calls = ent.cleanups.map (fun c => (c.1, c.2, e))) ∧
        (∀ (pre2 : Registry) (pk : Epoch) (pent : RegEntry),
          pre = pre2 ++ [(pk, pent)] →
          reg2 = pre2 ++ (pk, ⟨pent.snapshots,
              pent.cleanups ++ ent.cleanups.filter (fun c => decide (c.2 ≤ pk))⟩)
            :: post ∧
          calls = (ent.cleanups.filter (fun c => !decide (c.2 ≤ pk))).map
            (fun c => (c.1, c.2, e))) := by
  intro pre e ent post hsnap hpre hpost
  have hsplit := splitReg_of_parts pre e ent post
    (fun p hp => Nat.ne_of_lt (hpre p hp))
  refine ⟨appendToLastCleanups pre
      (routeCleanups (!pre.isEmpty) (((pre.getLast?).map Prod.fst).getD 0)
        ent.cleanups).1 ++ post,
    (routeCleanups (!pre.isEmpty) (((pre.getLast?).map Prod.fst).getD 0)
        ent.cleanups).2.map (fun c => (c.1, c.2, e)), ?_, ?_, ?_, ?_⟩
  · unfold perform_cleanup
    rw [hsplit]
    dsimp only
    rw [if_neg (by simp [hsnap])]
  · intro q hq
    rcases List.mem_append.mp hq with hq1 | hq2
    · have hmem : q.1 ∈ (appendToLastCleanups pre _).map Prod.fst :=
        List.mem_map_of_mem Prod.fst hq1
      rw [appendToLastCleanups_keys] at hmem
      obtain ⟨p, hp, hpq⟩ := List.mem_map.mp hmem
      rw [← hpq]
      exact ne_of_lt (hpre p hp)
    · exact ne_of_gt (hpost q hq2)
  · intro hpre0
    subst hpre0
    rw [routeCleanups_eq]
    constructor
    · rfl
    · simp
  · intro pre2 pk pent hpre2
    subst hpre2
    have hlast : ((pre2 ++ [(pk, pent)]).getLast?.map Prod.fst).getD 0 = pk := by
      rw [List.getLast?_concat]
      rfl
    have hisEmpty : (pre2 ++ [(pk, pent)]).isEmpty = false := by
      simp [List.isEmpty_iff]
    rw [hlast, hisEmpty, routeCleanups_eq]
    constructor
    · rw [appendToLastCleanups_concat]
      simp
    · simp

/-- Witness for C3: the entry at epoch 20 has cleanups `[(1,15), (2,5)]`
and predecessor epoch 10: the pair `(2,5)` is transferred (10 ≥ 5) and
`(1,15)` becomes the pending call `cleanup(15, 20)`; epoch 20 is gone from
the resulting registry. -/
theorem perform_cleanup_spec_witness :
    ∃ (reg2 : Registry) (calls : List (Nat × Epoch × Epoch)),
      perform_cleanup
          [(10, ⟨[], []⟩), (20, ⟨[], [(1, 15), (2, 5)]⟩)] 20 =
        .ok (reg2, calls) ∧
      (∀ q ∈ reg2, q.1 ≠ 20) ∧
      reg2 = [(10, ⟨[], [(2, 5)]⟩)] ∧ calls = [(1, 15, 20)] := by
  obtain ⟨reg2, calls, h1, h2, _, h4⟩ :=
    perform_cleanup_spec [(10, ⟨[], []⟩)] 20 ⟨[], [(1, 15), (2, 5)]⟩ []
      rfl (by decide) (by decide)
  obtain ⟨h5, h6⟩ := h4 [] 10 ⟨[], []⟩ rfl
  refine ⟨reg2, calls, h1, h2, ?_, ?_⟩
  · rw [h5]; rfl
  · rw [h6]; rfl

/-- C5 counterexample: the claim says the append performed by a successful
`setup` patches the former tail entry's `valid_to` to the *prior current
epoch*.  With current epoch 600 (so `new_epoch = 601`), `setup` on a fresh
object patches the former tail's `valid_to` to 601 — the new epoch — and
not to the prior current epoch 600. -/
theorem setup_patch_not_prior_epoch :
    setup 600 600 601 (5 : ℕ) (newVersioned 0) =
      .ok (true, ⟨2, [⟨601, 0⟩, ⟨1, 5⟩]⟩) ∧
    ((⟨2, [⟨601, 0⟩, ⟨1, 5⟩]⟩ : Data ℕ).history[0]?).map Entry.valid_to =
      some 601 ∧
    (601 : Epoch) ≠ 600 :=
  ⟨rfl, rfl, by decide⟩

/-- C5 (amended): a successful `setup` allocates a new history block with
room for one more entry than the current block holds (`copy(size() + 1)`),
copies the existing entries, patches the former tail entry's `valid_to` to
the **new** epoch `new_epoch = current_epoch + 1` (one greater than the
prior current epoch), and appends the new value as the new tail with the
sentinel `valid_to = 1`; the block is then installed in place of the old
one (via CAS in the source; the sequential model installs directly). -/
theorem setup_append_shape :
    ∀ (α : Type) (cur old : Epoch) (v : α) (d : Data α) (b : Bool)
      (d2 : Data α),
      setup cur old (cur + 1) v d = .ok (b, d2) → b = true →
      d2.capacity = d.size + 1 ∧
      d2.history = patchLast d.history (cur + 1) ++ [⟨1, v⟩] ∧
      (∀ i, i < d.size - 1 → d2.history[i]? = d.history[i]?) ∧
      (d.history ≠ [] →
        ∃ tl, d.history.getLast? = some tl ∧
          d2.history[d.size - 1]? = some ⟨cur + 1, tl.value⟩) ∧
      d2.history[d.size]? = some ⟨1, v⟩ := by
  intro α cur old v d b d2 h hb
  subst hb
  rw [setup_eq] at h
  by_cases hc : old < validFromAt d (d.size - 1)
  · rw [if_pos hc] at h
    simp at h
  · rw [if_neg hc] at h
    cases h
    refine ⟨rfl, rfl, ?_, ?_, ?_⟩
    · intro i hi
      have hilt : i < (patchLast d.history (cur + 1)).length := by
        rw [patchLast_length]
        simp only [Data.size] at hi
        omega
      rw [List.getElem?_append_left hilt]
      have hne : d.history ≠ [] := by
        intro h0
        simp only [Data.size, h0, List.length_nil] at hi
        omega
      obtain ⟨l, tl, hlx⟩ := (List.eq_nil_or_concat d.history).resolve_left hne
      rw [List.concat_eq_append] at hlx
      rw [hlx, patchLast_concat]
      have hil : i < l.length := by
        simp only [Data.size, hlx, List.length_append,
          List.length_singleton] at hi
        omega
      rw [List.getElem?_append_left hil, List.getElem?_append_left hil]
    · intro hne
      obtain ⟨l, tl, hlx⟩ := (List.eq_nil_or_concat d.history).resolve_left hne
      rw [List.concat_eq_append] at hlx
      refine ⟨tl, by rw [hlx, List.getLast?_concat], ?_⟩
      rw [hlx, patchLast_concat]
      have hsz : d.size - 1 = l.length := by
        simp [Data.size, hlx]
      rw [hsz, List.getElem?_append_left (by simp),
        List.getElem?_append_right (Nat.le_refl _)]
      simp
    · have hlen : (patchLast d.history (cur + 1)).length = d.size := by
        rw [patchLast_length]; rfl
      rw [← hlen, List.getElem?_append_right (Nat.le_refl _)]
      simp

/-- Witness for C5 (amended) at a fresh object: the new block has capacity
2, keeps no pre-tail entries, rewrites the former tail to `valid_to = 2`,
and appends `(valid_to 1, 9)`. -/
theorem setup_append_shape_witness :
    (setup 1 1 2 (9 : ℕ) (newVersioned 4) = .ok (true, ⟨2, [⟨2, 4⟩, ⟨1, 9⟩]⟩)) ∧
    ((⟨2, [⟨2, 4⟩, ⟨1, 9⟩]⟩ : Data ℕ).capacity = (newVersioned (4 : ℕ)).size + 1 ∧
      ∃ tl, (newVersioned (4 : ℕ)).history.getLast? = some tl ∧
        (⟨2, [⟨2, 4⟩, ⟨1, 9⟩]⟩ : Data ℕ).history[(newVersioned (4 : ℕ)).size - 1]? =
          some ⟨2, tl.value⟩) := by
  have h := setup_append_shape ℕ 1 1 9 (newVersioned 4) true
    ⟨2, [⟨2, 4⟩, ⟨1, 9⟩]⟩ rfl rfl
  exact ⟨rfl, h.1, (h.2.2.2.1 (by decide))⟩

/-- C6 counterexample: the claim says a `rename_epoch` that would break the
strictly-increasing `valid_to` invariant is detected and rejected.  On the
history `[(2, 0), (3, 1), (1, 2)]` (non-tail chain `2 < 3` intact) the call
`rename_epoch(2, 10)` succeeds and installs `[(10, 0), (3, 1), (1, 2)]`,
whose non-tail chain `10 < 3` is violated — nothing is detected or
rejected. -/
theorem rename_epoch_claim_false :
    rename_epoch 2 10 (⟨3, [⟨2, 0⟩, ⟨3, 1⟩, ⟨1, 2⟩]⟩ : Data ℕ) =
      .ok (3, ⟨3, [⟨10, 0⟩, ⟨3, 1⟩, ⟨1, 2⟩]⟩) ∧
    nonTailMono (⟨3, [⟨2, 0⟩, ⟨3, 1⟩, ⟨1, 2⟩]⟩ : Data ℕ) ∧
    ¬ nonTailMono (⟨3, [⟨10, 0⟩, ⟨3, 1⟩, ⟨1, 2⟩]⟩ : Data ℕ) := by
  refine ⟨rfl, ?_, ?_⟩
  · simp [nonTailMono, List.chain'_cons]
  · simp [nonTailMono, List.chain'_cons]

/-- C6 (amended): `rename_epoch(old_valid_from, new_valid_from)` performs
no monotonicity check at all: whenever `old_valid_from ≥ the head entry's
valid_to` and some entry has `valid_to = old_valid_from`, it rewrites the
first such entry's `valid_to` to `new_valid_from` unconditionally —
regardless of whether the resulting history is still strictly increasing —
and installs the result. -/
theorem rename_epoch_no_check :
    ∀ (α : Type) (old new : Epoch) (d : Data α) (x en : Entry α)
      (rest : List (Entry α)) (i : Nat),
      d.history = x :: rest →
      ¬ old < x.valid_to →
      d.history.findIdx? (fun en2 => en2.valid_to = old) = some i →
      d.history[i]? = some en →
      rename_epoch old new d =
        .ok ((if 3 ≤ d.size ∧ i = d.size - 3 then
                ((d.history[d.size - 2]?).map Entry.valid_to).getD 0
              else 0),
             ⟨d.capacity, d.history.set i ⟨new, en.value⟩⟩) := by
  intro α old new d x en rest i hh hlt hfind hget
  obtain ⟨cap, hist⟩ := d
  simp only at hh
  subst hh
  unfold rename_epoch
  dsimp only at hfind hget ⊢
  rw [if_neg hlt, hfind]
  dsimp only
  rw [hget]

/-- Witness for C6 (amended): the concrete rename from the counterexample
follows the characterization. -/
theorem rename_epoch_no_check_witness :
    rename_epoch 2 9 (⟨3, [⟨2, 5⟩, ⟨4, 6⟩, ⟨1, 7⟩]⟩ : Data ℕ) =
      .ok (4, ⟨3, [⟨9, 5⟩, ⟨4, 6⟩, ⟨1, 7⟩]⟩) := by
  have h := rename_epoch_no_check ℕ 2 9 ⟨3, [⟨2, 5⟩, ⟨4, 6⟩, ⟨1, 7⟩]⟩
    ⟨2, 5⟩ ⟨2, 5⟩ [⟨4, 6⟩, ⟨1, 7⟩] 0 rfl (by decide) rfl rfl
  simpa using h

/-- C10: `history_size()` returns the number of stored entries minus one —
only superseded versions are counted, never the current committed value —
and a freshly constructed object reports `history_size() == 0` while its
history holds one entry. -/
theorem history_size_spec :
    (∀ (α : Type) (d : Data α), history_size d = d.size - 1) ∧
    (∀ (α : Type) (v : α),
      history_size (newVersioned v) = 0 ∧ (newVersioned v).size = 1) := by
  refine ⟨fun α d => rfl, fun α v => ⟨rfl, rfl⟩⟩

theorem firstMatch_parts (uvf : Epoch) :
    ∀ (l : List (Entry α)) (vf : Epoch) (pre : List (Entry α)) (y : Entry α)
      (suf : List (Entry α)),
      firstMatch uvf vf l = some (pre, y, suf) → l = pre ++ y :: suf := by
  intro l
  induction l with
  | nil => intro vf pre y suf h; simp [firstMatch] at h
  | cons z zs ih =>
    intro vf pre y suf h
    by_cases hz : vf = uvf
    · simp only [firstMatch, if_pos hz, Option.some.injEq, Prod.mk.injEq] at h
      obtain ⟨h1, h2, h3⟩ := h
      subst h1; subst h2; subst h3
      rfl
    · cases hm : firstMatch uvf z.valid_to zs with
      | none => simp [firstMatch, if_neg hz, hm] at h
      | some p =>
        obtain ⟨pre2, y2, suf2⟩ := p
        have hzs := ih z.valid_to pre2 y2 suf2 hm
        simp only [firstMatch, if_neg hz, hm, Option.map_some', Option.map_eq_map,
          Option.some.injEq, Prod.mk.injEq] at h
        obtain ⟨h1, h2, h3⟩ := h
        subst h1; subst h2; subst h3
        simp [hzs]

theorem cleanupGo_none_eq (uvf : Epoch) :
    ∀ (l : List (Entry α)) (vf : Epoch) (acc : List (Entry α)) (f dp : Bool),
      firstMatch uvf vf l = none →
      cleanupGo uvf l vf acc f dp = (acc ++ l, f, dp) := by
  intro l
  induction l with
  | nil => intro vf acc f dp _; simp [cleanupGo]
  | cons z zs ih =>
    intro vf acc f dp h
    by_cases hz : vf = uvf
    · simp [firstMatch, if_pos hz] at h
    · have hm : firstMatch uvf z.valid_to zs = none := by
        cases hm2 : firstMatch uvf z.valid_to zs with
        | none => rfl
        | some p => simp [firstMatch, if_neg hz, hm2] at h
      simp only [cleanupGo, if_neg hz]
      rw [ih z.valid_to (acc ++ [z]) f dp hm]
      simp

theorem cleanupGo_some_eq (uvf : Epoch) :
    ∀ (l : List (Entry α)) (vf : Epoch) (acc : List (Entry α)) (f dp : Bool)
      (pre : List (Entry α)) (y : Entry α) (suf : List (Entry α)),
      firstMatch uvf vf l = some (pre, y, suf) →
      cleanupGo uvf l vf acc f dp =
        cleanupGo uvf suf y.valid_to (patchLast (acc ++ pre) y.valid_to)
          true (dp || f) := by
  intro l
  induction l with
  | nil => intro vf acc f dp pre y suf h; simp [firstMatch] at h
  | cons z zs ih =>
    intro vf acc f dp pre y suf h
    by_cases hz : vf = uvf
    · simp only [firstMatch, if_pos hz, Option.some.injEq, Prod.mk.injEq] at h
      obtain ⟨h1, h2, h3⟩ := h
      subst h1; subst h2; subst h3
      simp only [cleanupGo, if_pos hz, List.append_nil]
    · cases hm : firstMatch uvf z.valid_to zs with
      | none => simp [firstMatch, if_neg hz, hm] at h
      | some p =>
        obtain ⟨pre2, y2, suf2⟩ := p
        simp only [firstMatch, if_neg hz, hm, Option.map_some', Option.map_eq_map,
          Option.some.injEq, Prod.mk.injEq] at h
        obtain ⟨h1, h2, h3⟩ := h
        subst h1; subst h2; subst h3
        simp only [cleanupGo, if_neg hz]
        rw [ih z.valid_to (acc ++ [z]) f dp _ _ _ hm]
        rw [List.append_assoc]
        rfl

theorem cleanupGo_dup_true (uvf : Epoch) :
    ∀ (l : List (Entry α)) (vf : Epoch) (acc : List (Entry α)) (f : Bool),
      (cleanupGo uvf l vf acc f true).2.2 = true := by
  intro l
  induction l with
  | nil => intro vf acc f; rfl
  | cons z zs ih =>
    intro vf acc f
    by_cases hz : vf = uvf
    · simp only [cleanupGo, if_pos hz, Bool.true_or]
      exact ih z.valid_to _ true
    · simp only [cleanupGo, if_neg hz]
      exact ih z.valid_to _ f

/-- Characterization of a successful `cleanup`: either the head entry was
removed (and no later entry matched), or exactly one later entry `y` was
removed, with the preceding output entry patched to `y.valid_to`. -/
theorem cleanup_ok_shape {α : Type} {d d2 : Data α} {uvf trigger : Epoch}
    (h : d.cleanup uvf trigger = .ok d2) :
    ∃ x rest, d.history = x :: rest ∧ rest ≠ [] ∧ d2.capacity = d.size ∧
      (((1 = uvf ∨ uvf < x.valid_to) ∧ d2.history = rest) ∨
       (¬(1 = uvf ∨ uvf < x.valid_to) ∧
         ∃ pre y suf, firstMatch uvf x.valid_to rest = some (pre, y, suf) ∧
           rest = pre ++ y :: suf ∧
           d2.history = patchLast (x :: pre) y.valid_to ++ suf)) := by
  unfold Data.cleanup at h
  by_cases hs : d.size < 2
  · simp [hs] at h
  · rw [if_neg hs] at h
    cases hh : d.history with
    | nil =>
      rw [hh] at h
      simp at h
    | cons x rest =>
      rw [hh] at h
      dsimp only at h
      have hrne : rest ≠ [] := by
        intro h0
        simp only [Data.size, hh, h0, List.length_singleton] at hs
        omega
      refine ⟨x, rest, rfl, hrne, ?_, ?_⟩
      all_goals
        unfold cleanupScan at h
      · by_cases hHead : 1 = uvf ∨ uvf < x.valid_to
        · rw [if_pos hHead] at h
          cases hm : firstMatch uvf x.valid_to rest with
          | some p =>
            rw [cleanupGo_some_eq uvf rest x.valid_to [] true false
              p.1 p.2.1 p.2.2 (by rw [hm])] at h
            simp only [Bool.or_true, Bool.true_or, Bool.or_false,
              Bool.false_or] at h
            rw [if_pos (cleanupGo_dup_true uvf _ _ _ _)] at h
            simp at h
          | none =>
            rw [cleanupGo_none_eq uvf rest x.valid_to [] true false hm] at h
            simp only [List.nil_append] at h
            rw [if_neg (by simp)] at h
            rw [if_neg (by simp)] at h
            by_cases hsz : d.size ≠ rest.length + 1
            · rw [if_pos hsz] at h; simp at h
            · rw [if_neg hsz] at h
              cases h
              rfl
        · rw [if_neg hHead] at h
          cases hm : firstMatch uvf x.valid_to rest with
          | none =>
            rw [cleanupGo_none_eq uvf rest x.valid_to [x] false false hm] at h
            rw [if_neg (by simp)] at h
            rw [if_pos (by simp)] at h
            simp at h
          | some p =>
            obtain ⟨pre, y, suf⟩ := p
            rw [cleanupGo_some_eq uvf rest x.valid_to [x] false false
              pre y suf hm] at h
            simp only [Bool.or_true, Bool.true_or, Bool.or_false,
              Bool.false_or] at h
            cases hm2 : firstMatch uvf y.valid_to suf with
            | some q =>
              rw [cleanupGo_some_eq uvf suf y.valid_to _ true false
                q.1 q.2.1 q.2.2 (by rw [hm2])] at h
              simp only [Bool.or_true, Bool.true_or, Bool.or_false,
                Bool.false_or] at h
              rw [if_pos (cleanupGo_dup_true uvf _ _ _ _)] at h
              simp at h
            | none =>
              rw [cleanupGo_none_eq uvf suf y.valid_to _ true false hm2] at h
              rw [if_neg (by simp)] at h
              rw [if_neg (by simp)] at h
              by_cases hsz : d.size ≠
                  (patchLast ([x] ++ pre) y.valid_to ++ suf).length + 1
              · rw [if_pos hsz] at h; simp at h
              · rw [if_neg hsz] at h
                cases h
                rfl
      · by_cases hHead : 1 = uvf ∨ uvf < x.valid_to
        · rw [if_pos hHead] at h
          cases hm : firstMatch uvf x.valid_to rest with
          | some p =>
            rw [cleanupGo_some_eq uvf rest x.valid_to [] true false
              p.1 p.2.1 p.2.2 (by rw [hm])] at h
            simp only [Bool.or_true, Bool.true_or, Bool.or_false,
              Bool.false_or] at h
            rw [if_pos (cleanupGo_dup_true uvf _ _ _ _)] at h
            simp at h
          | none =>
            rw [cleanupGo_none_eq uvf rest x.valid_to [] true false hm] at h
            simp only [List.nil_append] at h
            rw [if_neg (by simp)] at h
            rw [if_neg (by simp)] at h
            by_cases hsz : d.size ≠ rest.length + 1
            · rw [if_pos hsz] at h; simp at h
            · rw [if_neg hsz] at h
              cases h
              exact Or.inl ⟨hHead, rfl⟩
        · rw [if_neg hHead] at h
          cases hm : firstMatch uvf x.valid_to rest with
          | none =>
            rw [cleanupGo_none_eq uvf rest x.valid_to [x] false false hm] at h
            rw [if_neg (by simp)] at h
            rw [if_pos (by simp)] at h
            simp at h
          | some p =>
            obtain ⟨pre, y, suf⟩ := p
            rw [cleanupGo_some_eq uvf rest x.valid_to [x] false false
              pre y suf hm] at h
            simp only [Bool.or_true, Bool.true_or, Bool.or_false,
              Bool.false_or] at h
            cases hm2 : firstMatch uvf y.valid_to suf with
            | some q =>
              rw [cleanupGo_some_eq uvf suf y.valid_to _ true false
                q.1 q.2.1 q.2.2 (by rw [hm2])] at h
              simp only [Bool.or_true, Bool.true_or, Bool.or_false,
                Bool.false_or] at h
              rw [if_pos (cleanupGo_dup_true uvf _ _ _ _)] at h
              simp at h
            | none =>
              rw [cleanupGo_none_eq uvf suf y.valid_to _ true false hm2] at h
              rw [if_neg (by simp)] at h
              rw [if_neg (by simp)] at h
              by_cases hsz : d.size ≠
                  (patchLast ([x] ++ pre) y.valid_to ++ suf).length + 1
              · rw [if_pos hsz] at h; simp at h
              · rw [if_neg hsz] at h
                cases h
                exact Or.inr ⟨hHead, pre, y, suf, rfl,
                  firstMatch_parts uvf rest x.valid_to pre y suf hm, rfl⟩

theorem chain'_dropLast_of {β : Type} {R : β → β → Prop} {l : List β}
    (h : List.Chain' R l) : List.Chain' R l.dropLast := by
  rcases List.eq_nil_or_concat l with rfl | ⟨l2, z, hl⟩
  · simp
  · rw [List.concat_eq_append] at hl
    subst hl
    rw [List.dropLast_concat]
    exact (List.chain'_append.mp h).1

theorem nonTailMono_cleanup {α : Type} {d d2 : Data α} {uvf trigger : Epoch}
    (hinv : nonTailMono d) (h : d.cleanup uvf trigger = .ok d2) :
    nonTailMono d2 := by
  obtain ⟨x, rest, hh, hrne, _, hcase⟩ := cleanup_ok_shape h
  unfold nonTailMono at *
  rw [hh] at hinv
  rcases hcase with ⟨_, hd2⟩ | ⟨_, pre, y, suf, _, hparts, hd2⟩
  · rw [hd2]
    cases hr : rest with
    | nil => simp
    | cons r rs =>
      subst hr
      rw [List.dropLast_cons₂] at hinv
      exact hinv.tail
  · subst hparts
    rw [hd2]
    obtain ⟨l2, lastE, hL⟩ :=
      (List.eq_nil_or_concat (x :: pre)).resolve_left (by simp)
    rw [List.concat_eq_append] at hL
    cases hsuf : suf with
    | nil =>
      subst hsuf
      rw [List.append_nil, hL, patchLast_concat, List.dropLast_concat]
      have hpack : x :: (pre ++ [y]) = (x :: pre) ++ [y] := rfl
      rw [hpack, List.dropLast_concat, hL] at hinv
      exact (List.chain'_append.mp hinv).1
    | cons s0 srest =>
      subst hsuf
      have hpack : x :: (pre ++ y :: s0 :: srest) =
          (x :: pre) ++ y :: s0 :: srest := rfl
      rw [hpack, List.dropLast_append_of_ne_nil _ (by simp),
        List.dropLast_cons₂] at hinv
      rw [List.dropLast_append_of_ne_nil _ (by simp)]
      rw [hL, patchLast_concat] at *
      rw [List.chain'_append] at hinv ⊢
      obtain ⟨hA, hB, hlink⟩ := hinv
      rw [List.chain'_cons'] at hB
      rw [List.chain'_append] at hA
      obtain ⟨hl2, _, hlink2⟩ := hA
      refine ⟨?_, hB.2, ?_⟩
      · rw [List.chain'_append]
        refine ⟨hl2, List.chain'_singleton _, ?_⟩
        intro a ha b hb
        simp only [List.head?_cons, Option.mem_def, Option.some.injEq] at hb
        subst hb
        have h1 : a.valid_to < lastE.valid_to :=
          hlink2 a ha lastE (Option.mem_def.mpr rfl)
        have h2 : lastE.valid_to < y.valid_to :=
          hlink lastE
            (by rw [List.getLast?_concat]; exact Option.mem_def.mpr rfl) y
            (Option.mem_def.mpr rfl)
        show a.valid_to < y.valid_to
        exact h1.trans h2
      · intro a ha b hb
        rw [List.getLast?_concat] at ha
        simp only [Option.mem_def, Option.some.injEq] at ha
        subst ha
        show y.valid_to < b.valid_to
        exact hB.1 b hb

theorem nonTailMono_setup {α : Type} {cur old : Epoch} {v : α}
    {d d2 : Data α} (hinv : nonTailMono d) (hold : old < cur + 1)
    (h : setup cur old (cur + 1) v d = .ok (true, d2)) : nonTailMono d2 := by
  rw [setup_eq] at h
  by_cases hc : old < validFromAt d (d.size - 1)
  · rw [if_pos hc] at h; simp at h
  · rw [if_neg hc] at h
    cases h
    unfold nonTailMono at *
    rw [List.dropLast_concat]
    rcases List.eq_nil_or_concat d.history with hnil | ⟨l, tl, hlx⟩
    · rw [hnil]; simp [patchLast]
    · rw [List.concat_eq_append] at hlx
      rw [hlx, patchLast_concat]
      rw [hlx, List.dropLast_concat] at hinv
      rw [List.chain'_append]
      refine ⟨hinv, List.chain'_singleton _, ?_⟩
      intro a ha b hb
      simp only [List.head?_cons, Option.mem_def, Option.some.injEq] at hb
      subst hb
      have hlne : l ≠ [] := by
        intro h0
        rw [h0] at ha
        simp at ha
      have hs : d.size = l.length + 1 := by simp [Data.size, hlx]
      have hlen1 : 1 ≤ l.length := by
        cases l with
        | nil => exact absurd rfl hlne
        | cons c cs => simp
      have hvf : validFromAt d (d.size - 1) = a.valid_to := by
        unfold validFromAt
        have hne0 : ¬ (d.size - 1 = 0) := by omega
        rw [if_neg hne0]
        have hidx : d.size - 1 - 1 = l.length - 1 := by omega
        rw [hidx, hlx,
          List.getElem?_append_left
            (by cases l with
                | nil => exact absurd rfl hlne
                | cons c cs => simp),
          ← List.getLast?_eq_getElem?]
        rw [Option.mem_def] at ha
        rw [ha]
        rfl
    -- valid_from of the tail ≤ old < cur + 1
      rw [hvf] at hc
      show a.valid_to < cur + 1
      exact Nat.lt_of_le_of_lt (Nat.not_lt.mp hc) hold

theorem nonTailMono_rollback {α : Type} {d d2 : Data α}
    (hinv : nonTailMono d) (h : rollback d = .ok d2) : nonTailMono d2 := by
  unfold rollback at h
  have hcopy : d.copy d.size = .ok ⟨d.size, d.history⟩ := by
    simp [Data.copy]
  rw [hcopy] at h
  dsimp only at h
  unfold Data.pop_back at h
  by_cases hs : Data.size ⟨d.size, d.history⟩ < 2
  · rw [if_pos hs] at h; simp at h
  · rw [if_neg hs] at h
    cases h
    exact chain'_dropLast_of hinv

theorem nonTailMono_rename {α : Type} {old new r : Epoch} {d d2 : Data α}
    (hinv : nonTailMono d) (h : rename_epoch old new d = .ok (r, d2))
    (hnb : ∀ i, d.history.findIdx? (fun en => en.valid_to = old) = some i →
      i = d.history.length - 1 ∨
      ((0 < i → ∀ p, d.history[i-1]? = some p → p.valid_to < new) ∧
       (i + 3 ≤ d.history.length →
         ∀ s, d.history[i+1]? = some s → new < s.valid_to))) :
    nonTailMono d2 := by
  unfold rename_epoch at h
  cases hh : d.history with
  | nil => rw [hh] at h; simp at h
  | cons x rest =>
    rw [hh] at h
    dsimp only at h
    by_cases hlt : old < x.valid_to
    · rw [if_pos hlt] at h
      simp only [Except.ok.injEq, Prod.mk.injEq] at h
      obtain ⟨_, hd⟩ := h
      subst hd
      exact hinv
    · rw [if_neg hlt] at h
      cases hfind : (x :: rest).findIdx? (fun en => decide (en.valid_to = old)) with
      | none => rw [hfind] at h; simp at h
      | some i =>
        rw [hfind] at h
        dsimp only at h
        cases hget : (x :: rest)[i]? with
        | none => rw [hget] at h; simp at h
        | some en =>
          rw [hget] at h
          simp only [Except.ok.injEq, Prod.mk.injEq] at h
          obtain ⟨_, hd⟩ := h
          have hnbi := hnb i (by rw [hh]; exact hfind)
          rw [hh] at hnbi
          unfold nonTailMono at hinv ⊢
          rw [hh] at hinv
          rw [← hd]
          dsimp only
          have hiL : i < (x :: rest).length :=
            (List.getElem?_eq_some_iff.mp hget).1
          rw [List.chain'_iff_get] at hinv ⊢
          intro k hk
          have hklen : k + 1 < (x :: rest).length - 1 := by
            have hk2 := hk
            simp only [List.length_dropLast, List.length_set] at hk2
            omega
          have hmono : ∀ j (hj2 : j + 1 < (x :: rest).length - 1),
              ((x :: rest).get ⟨j, by omega⟩).valid_to <
                ((x :: rest).get ⟨j + 1, by omega⟩).valid_to := by
            intro j hj
            have := hinv j (by simp only [List.length_dropLast]; omega)
            simpa [List.get_eq_getElem, List.getElem_dropLast] using this
          simp only [List.get_eq_getElem]
          rw [List.getElem_dropLast, List.getElem_dropLast]
          rw [List.getElem_set, List.getElem_set]
          by_cases hik : i = k
          · rw [if_pos hik]
            have hik1 : ¬ i = k + 1 := by omega
            rw [if_neg hik1]
            rcases hnbi with htail | ⟨_, hnext⟩
            · omega
            · have hgetk : (x :: rest)[i+1]? =
                  some ((x :: rest).get ⟨k + 1, by omega⟩) := by
                subst hik
                simp only [List.get_eq_getElem]
                exact List.getElem?_eq_getElem (by omega)
              have := hnext (by omega) ((x :: rest).get ⟨k + 1, by omega⟩) hgetk
              simpa [List.get_eq_getElem] using this
          · rw [if_neg hik]
            by_cases hik1 : i = k + 1
            · rw [if_pos hik1]
              rcases hnbi with htail | ⟨hprev, _⟩
              · omega
              · have hgetp : (x :: rest)[i-1]? =
                  some ((x :: rest).get ⟨k, by omega⟩) := by
                  subst hik1
                  simp only [List.get_eq_getElem]
                  exact List.getElem?_eq_getElem (by omega)
                have := hprev (by omega) ((x :: rest).get ⟨k, by omega⟩) hgetp
                simpa [List.get_eq_getElem] using this
            · rw [if_neg hik1]
              have := hmono k hklen
              simpa [List.get_eq_getElem] using this

/-- C4 counterexample: the claim asks for `a.valid_to < b.valid_to` on
every adjacent pair *including the tail entry*.  Already after the very
first `setup` on a fresh object the history is
`[(valid_to 2, old), (valid_to 1, new)]` — the tail entry carries the
sentinel `valid_to = 1`, so the adjacent pair `(2, 1)` violates the claimed
strict monotonicity. -/
theorem history_monotonic_claim_false :
    setup 1 1 2 (7 : ℕ) (newVersioned 0) = .ok (true, ⟨2, [⟨2, 0⟩, ⟨1, 7⟩]⟩) ∧
    ¬ fullMono (⟨2, [⟨2, 0⟩, ⟨1, 7⟩]⟩ : Data ℕ) := by
  refine ⟨rfl, ?_⟩
  simp [fullMono, List.chain'_cons]

/-- C4 (amended): with the tail entry excluded (it carries the sentinel
`valid_to = 1` rather than a real epoch), strict monotonicity of
`valid_to` over adjacent entries is established by construction and is
preserved by `setup` (for epoch arguments with `old_epoch < new_epoch`, as
in every commit), by `rollback`, and by `cleanup`; `commit` never touches
the history (in this model it only updates the registry); and
`rename_epoch` preserves it provided the new `valid_from` respects the
strict order with the rewritten entry's neighbours — the code itself does
not check this. -/
theorem history_monotonic_invariant :
    (∀ (α : Type) (v : α), nonTailMono (newVersioned v)) ∧
    (∀ (α : Type) (cur old : Epoch) (v : α) (d d2 : Data α),
      nonTailMono d → old < cur + 1 →
      setup cur old (cur + 1) v d = .ok (true, d2) → nonTailMono d2) ∧
    (∀ (α : Type) (d d2 : Data α),
      nonTailMono d → rollback d = .ok d2 → nonTailMono d2) ∧
    (∀ (α : Type) (uvf trigger : Epoch) (d d2 : Data α),
      nonTailMono d → d.cleanup uvf trigger = .ok d2 → nonTailMono d2) ∧
    (∀ (α : Type) (old new r : Epoch) (d d2 : Data α),
      nonTailMono d → rename_epoch old new d = .ok (r, d2) →
      (∀ i, d.history.findIdx? (fun en => en.valid_to = old) = some i →
        i = d.history.length - 1 ∨
        ((0 < i → ∀ p, d.history[i-1]? = some p → p.valid_to < new) ∧
         (i + 3 ≤ d.history.length →
           ∀ s, d.history[i+1]? = some s → new < s.valid_to))) →
      nonTailMono d2) := by
  refine ⟨?_, ?_, ?_, ?_, ?_⟩
  · intro α v
    simp [nonTailMono, newVersioned]
  · intro α cur old v d d2 hinv hold h
    exact nonTailMono_setup hinv hold h
  · intro α d d2 hinv h
    exact nonTailMono_rollback hinv h
  · intro α uvf trigger d d2 hinv h
    exact nonTailMono_cleanup hinv h
  · intro α old new r d d2 hinv h hnb
    exact nonTailMono_rename hinv h hnb

/-- Witness for C4 (amended) on concrete runs of each operation. -/
theorem history_monotonic_invariant_witness :
    nonTailMono (newVersioned (0 : ℕ)) ∧
    nonTailMono (⟨2, [⟨2, 0⟩, ⟨1, 7⟩]⟩ : Data ℕ) ∧
    nonTailMono (⟨2, [⟨2, 0⟩]⟩ : Data ℕ) ∧
    nonTailMono (⟨3, [⟨3, 0⟩, ⟨1, 2⟩]⟩ : Data ℕ) ∧
    nonTailMono (⟨3, [⟨3, 0⟩, ⟨4, 1⟩, ⟨1, 2⟩]⟩ : Data ℕ) := by
  have hmono2 : nonTailMono (⟨2, [⟨2, 0⟩, ⟨1, 7⟩]⟩ : Data ℕ) :=
    history_monotonic_invariant.2.1 ℕ 1 1 7 (newVersioned 0)
      ⟨2, [⟨2, 0⟩, ⟨1, 7⟩]⟩ (history_monotonic_invariant.1 ℕ 0)
      (by decide) rfl
  refine ⟨history_monotonic_invariant.1 ℕ 0, hmono2, ?_, ?_, ?_⟩
  · exact history_monotonic_invariant.2.2.1 ℕ ⟨2, [⟨2, 0⟩, ⟨1, 7⟩]⟩
      ⟨2, [⟨2, 0⟩]⟩ hmono2 rfl
  · refine history_monotonic_invariant.2.2.2.1 ℕ 2 9
      ⟨3, [⟨2, 0⟩, ⟨3, 1⟩, ⟨1, 2⟩]⟩ ⟨3, [⟨3, 0⟩, ⟨1, 2⟩]⟩ ?_ rfl
    simp [nonTailMono, List.chain'_cons]
  · refine history_monotonic_invariant.2.2.2.2 ℕ 2 3 4
      ⟨3, [⟨2, 0⟩, ⟨4, 1⟩, ⟨1, 2⟩]⟩ ⟨3, [⟨3, 0⟩, ⟨4, 1⟩, ⟨1, 2⟩]⟩ ?_ rfl ?_
    · simp [nonTailMono, List.chain'_cons]
    · intro i hi
      have hi0 : 0 = i :=
        Option.some.inj (hi : (some 0 : Option ℕ) = some i)
      subst hi0
      refine Or.inr ⟨?_, ?_⟩
      · intro h0
        exact absurd h0 (by decide)
      · intro _ s hs
        have hseq : (⟨4, 1⟩ : Entry ℕ) = s :=
          Option.some.inj (hs : some (⟨4, 1⟩ : Entry ℕ) = some s)
      -- the successor entry has valid_to 4 > 3
        rw [← hseq]
        decide

end JMVCC
